import Mathlib

/-
Verification of the collection utility library in
`samples/header-only/include/utils/algorithm.hpp`.

The three operations `filter`, `sum`, `average` over `std::vector<T>` are
embedded as functions over `List`:
  * `filter` is the accumulating `for`-loop with `push_back`;
  * `sum` is `std::accumulate(begin, end, T{0})`, i.e. the left fold of `+`
    starting from the zero value;
  * `average` guards the empty vector, returning `0.0`, and otherwise divides
    the (cast) sum by the size.  The `double` result is modelled by `ℚ`
    (exact division); every value appearing in the spec's scenarios is exactly
    representable, so the rational model agrees with IEEE double there.

A second, state-passing embedding (`VecState`/`AccState`) makes the caller's
vector an explicit component of the state, so that non-mutation of the input
is a provable property rather than a typing triviality; and an instrumented
variant of the filter loop records the sequence of predicate invocations.
-/

namespace Utils

/-- Loop body of `utils::filter`: iterate over the remaining elements,
appending `item` to `result` when the predicate holds
(`result.push_back(item)`). -/
def filterLoop {α : Type} (predicate : α → Bool) : List α → List α → List α
  | result, [] => result
  | result, item :: rest =>
      filterLoop predicate (if predicate item then result ++ [item] else result) rest

/-- Embedding of `utils::filter(vec, predicate)`: start from an empty `result`
vector and run the loop over `vec`. -/
def filter {α : Type} (vec : List α) (predicate : α → Bool) : List α :=
  filterLoop predicate [] vec

/-- Embedding of `std::accumulate(first, last, init)` with `operator+`:
`init = init + *first` for each element, in sequence order. -/
def accumulate {T : Type} [Add T] : List T → T → T
  | [], init => init
  | x :: xs, init => accumulate xs (init + x)

/-- Embedding of `utils::sum(vec)`: `std::accumulate(vec.begin(), vec.end(), T{0})`. -/
def sum {T : Type} [Add T] [OfNat T 0] (vec : List T) : T :=
  accumulate vec 0

/-- Embedding of `utils::average(vec)` (instantiated at element type `int`,
as in the sample program): if `vec.empty()` return `0.0`, else return
`static_cast<double>(sum(vec)) / vec.size()`, with `double` modelled by `ℚ`. -/
def average (vec : List ℤ) : ℚ :=
  if vec = [] then 0
  else ((sum vec : ℤ) : ℚ) / (vec.length : ℚ)

/-- Division that signals the zero-divisor case instead of performing it:
used to express that `average` never reaches a division by zero. -/
def checkedDiv (num : ℚ) (den : ℕ) : Option ℚ :=
  if den = 0 then none else some (num / (den : ℚ))

/-- Embedding of `utils::average` in which the single division site is the
checked one: it returns `none` exactly when a division by zero would occur. -/
def averageChecked (vec : List ℤ) : Option ℚ :=
  if vec = [] then some 0
  else checkedDiv ((sum vec : ℤ) : ℚ) vec.length

/-- Predicate from the sample program `main.cpp`: `n % 2 == 0`. -/
def isEven (n : ℤ) : Bool := n % 2 = 0

/-- Instrumented filter loop: identical to `filterLoop`, but additionally
records, in `calls`, each argument the predicate is invoked on, in the order
of invocation. -/
def filterInstr {α : Type} (predicate : α → Bool) :
    List α → List α → List α → List α × List α
  | [], result, calls => (result, calls)
  | item :: rest, result, calls =>
      filterInstr predicate rest
        (if predicate item then result ++ [item] else result)
        (calls ++ [item])

/-- Caller-visible state during a `filter` call: the caller's vector `vec`
(taken by `const` reference) and the local `result` vector. -/
structure VecState (α : Type) where
  vec : List α
  result : List α
  deriving Repr, DecidableEq

/-- State-passing embedding of the `filter` loop: every write the loop body
performs is explicit; `result.push_back(item)` updates only the `result`
component of the state. -/
def filterLoopSt {α : Type} (predicate : α → Bool) : List α → VecState α → VecState α
  | [], s => s
  | item :: rest, s =>
      filterLoopSt predicate rest
        (if predicate item then { s with result := s.result ++ [item] } else s)

/-- State-passing embedding of a full `utils::filter` call on `vec`. -/
def filterSt {α : Type} (vec : List α) (predicate : α → Bool) : VecState α :=
  filterLoopSt predicate vec { vec := vec, result := [] }

/-- Caller-visible state during a `sum` call: the caller's vector and the
accumulator of `std::accumulate`. -/
structure AccState (T : Type) where
  vec : List T
  acc : T
  deriving Repr, DecidableEq

/-- State-passing embedding of the `std::accumulate` loop inside `sum`:
each step reads an element and updates only the accumulator. -/
def accumulateSt {T : Type} [Add T] : List T → AccState T → AccState T
  | [], s => s
  | x :: xs, s => accumulateSt xs { s with acc := s.acc + x }

/-- State-passing embedding of a full `utils::sum` call on `vec`. -/
def sumSt {T : Type} [Add T] [OfNat T 0] (vec : List T) : AccState T :=
  accumulateSt vec { vec := vec, acc := 0 }

/-- State-passing embedding of a full `utils::average` call: the empty check
and the `vec.size()` read both go through the state left by the inner `sum`
call; the second component is the caller's vector after the call. -/
def averageSt (vec : List ℤ) : ℚ × List ℤ :=
  if vec = [] then (0, vec)
  else
    let s := sumSt vec
    ((s.acc : ℚ) / (s.vec.length : ℚ), s.vec)

/-! Helper lemmas shared by the claim theorems. -/

/-- Unfolding of the filter loop: it appends the kept elements to the
accumulated result, in order. -/
lemma filterLoop_eq {α : Type} (p : α → Bool) (l acc : List α) :
    filterLoop p acc l = acc ++ l.filter p := by
  induction l generalizing acc with
  | nil => simp [filterLoop]
  | cons x xs ih =>
      by_cases h : p x
      · simp [filterLoop, h, ih, List.filter_cons]
      · simp [filterLoop, h, ih, List.filter_cons]

/-- The embedded `filter` agrees with `List.filter`. -/
lemma filter_eq_listFilter {α : Type} (vec : List α) (p : α → Bool) :
    filter vec p = vec.filter p := by
  simp [filter, filterLoop_eq]

/-- The embedded `accumulate` is the left fold of `+`. -/
lemma accumulate_eq_foldl {T : Type} [Add T] (l : List T) (init : T) :
    accumulate l init = l.foldl (· + ·) init := by
  induction l generalizing init with
  | nil => rfl
  | cons x xs ih => simp [accumulate, ih, List.foldl_cons]

/-- The instrumented loop computes the same result as the plain loop and logs
exactly the elements it traverses, appended to the incoming log in order. -/
lemma filterInstr_eq {α : Type} (p : α → Bool) (l acc calls : List α) :
    filterInstr p l acc calls = (filterLoop p acc l, calls ++ l) := by
  induction l generalizing acc calls with
  | nil => simp [filterInstr, filterLoop]
  | cons x xs ih => simp [filterInstr, filterLoop, ih]

/-- The state-passing filter loop never writes the caller's vector. -/
lemma filterLoopSt_vec {α : Type} (p : α → Bool) (l : List α) (s : VecState α) :
    (filterLoopSt p l s).vec = s.vec := by
  induction l generalizing s with
  | nil => rfl
  | cons x xs ih =>
      by_cases h : p x
      · simp [filterLoopSt, h, ih]
      · simp [filterLoopSt, h, ih]

/-- The state-passing filter loop builds the same result as the plain loop. -/
lemma filterLoopSt_result {α : Type} (p : α → Bool) (l : List α) (s : VecState α) :
    (filterLoopSt p l s).result = filterLoop p s.result l := by
  induction l generalizing s with
  | nil => rfl
  | cons x xs ih =>
      by_cases h : p x
      · simp [filterLoopSt, filterLoop, h, ih]
      · simp [filterLoopSt, filterLoop, h, ih]

/-- The state-passing accumulate loop never writes the caller's vector. -/
lemma accumulateSt_vec {T : Type} [Add T] (l : List T) (s : AccState T) :
    (accumulateSt l s).vec = s.vec := by
  induction l generalizing s with
  | nil => rfl
  | cons x xs ih => simp [accumulateSt, ih]

/-- The state-passing accumulate loop computes `accumulate`. -/
lemma accumulateSt_acc {T : Type} [Add T] (l : List T) (s : AccState T) :
    (accumulateSt l s).acc = accumulate l s.acc := by
  induction l generalizing s with
  | nil => rfl
  | cons x xs ih => simp [accumulateSt, accumulate, ih]

/-! Claim theorems. -/

/-- C1: for every finite sequence `vec` and total predicate `p`,
`filter vec p` contains exactly the elements of `vec` for which `p` is true,
preserving their relative order (i.e. it equals `List.filter p vec`), and its
length is at most the length of `vec`. -/
theorem filter_spec {α : Type} (vec : List α) (p : α → Bool) :
    filter vec p = vec.filter p ∧ (filter vec p).length ≤ vec.length := by
  refine ⟨filter_eq_listFilter vec p, ?_⟩
  rw [filter_eq_listFilter]
  exact vec.length_filter_le p

/-- C2: for every type `T` with `+` and a zero value, `sum vec` is the left
fold of `+` over `vec` in sequence order starting from zero, and the sum of
the empty sequence is the zero value of `T`. -/
theorem sum_spec {T : Type} [Add T] [OfNat T 0] (vec : List T) :
    sum vec = vec.foldl (· + ·) 0 ∧ sum ([] : List T) = (0 : T) := by
  exact ⟨accumulate_eq_foldl vec 0, rfl⟩

/-- C3: for every non-empty sequence, `average vec` is `sum vec` divided by
the length of `vec` (exact division in the rational model of `double`), and
the average of the empty sequence is exactly `0`, not an error. -/
theorem average_spec (vec : List ℤ) :
    (vec ≠ [] → average vec = ((sum vec : ℤ) : ℚ) / (vec.length : ℚ)) ∧
      average ([] : List ℤ) = 0 := by
  constructor
  · intro h
    simp [average, h]
  · rfl

/-- C3 witness: the non-emptiness hypothesis discharged at `[1, 2]`. -/
theorem average_spec_witness :
    average [1, 2] = ((sum [1, 2] : ℤ) : ℚ) / (([1, 2] : List ℤ).length : ℚ) :=
  (average_spec [1, 2]).1 (by decide)

/-- C4: concrete scenarios from the sample program: on `[1,...,10]` the sum
is `55`, the average is `11/2 = 5.5`, and filtering by `isEven` yields
`[2,4,6,8,10]`; on `[-3, 3]` the sum is `0` and the average is `0`. -/
theorem concrete_scenarios :
    sum [1, 2, 3, 4, 5, 6, 7, 8, 9, 10] = (55 : ℤ) ∧
      average [1, 2, 3, 4, 5, 6, 7, 8, 9, 10] = (11 : ℚ) / 2 ∧
      filter [1, 2, 3, 4, 5, 6, 7, 8, 9, 10] isEven = [2, 4, 6, 8, 10] ∧
      sum [-3, 3] = (0 : ℤ) ∧ average [-3, 3] = 0 := by
  refine ⟨rfl, ?_, rfl, rfl, ?_⟩
  · norm_num [average, sum, accumulate]
    decide
  · norm_num [average, sum, accumulate]

/-- C5: filtering with the always-true predicate returns the sequence itself,
element for element and in order (identity law). -/
theorem filter_true_id {α : Type} (vec : List α) :
    filter vec (fun _ => true) = vec := by
  simp [filter_eq_listFilter]

/-- C6: filtering with the always-false predicate returns the empty
sequence. -/
theorem filter_false_empty {α : Type} (vec : List α) :
    filter vec (fun _ => false) = [] := by
  simp [filter_eq_listFilter]

/-- C7: `average` never divides by zero: the checked embedding, whose single
division site signals a zero divisor by `none`, always returns `some` — the
division is reached only when the sequence is non-empty, because the empty
case returns `0` first. -/
theorem average_no_div_by_zero (vec : List ℤ) :
    averageChecked vec = some (average vec) := by
  by_cases h : vec = []
  · simp [averageChecked, average, h]
  · have hlen : vec.length ≠ 0 := by simpa using h
    simp [averageChecked, average, checkedDiv, h, hlen]

/-- C8: none of the three operations mutates its input: in the state-passing
embedding, where every write of each loop is explicit, the caller's vector
component of the final state equals the initial vector, for `filter`, `sum`
and `average` alike. -/
theorem no_mutation {α : Type} (vec : List α) (p : α → Bool) (vecZ : List ℤ) :
    (filterSt vec p).vec = vec ∧ (sumSt vecZ).vec = vecZ ∧
      (averageSt vecZ).2 = vecZ := by
  refine ⟨filterLoopSt_vec p vec _, accumulateSt_vec vecZ _, ?_⟩
  by_cases h : vecZ = []
  · simp [averageSt, h]
  · simp [averageSt, h, sumSt, accumulateSt_vec]

/-- C9: the filter loop invokes the predicate exactly once on each element of
the input sequence, in sequence order: the invocation log of the instrumented
loop is the input sequence itself, while the computed result is unchanged. -/
theorem filter_calls_each_once_in_order {α : Type} (vec : List α) (p : α → Bool) :
    (filterInstr p vec [] []).2 = vec ∧ (filterInstr p vec [] []).1 = filter vec p := by
  rw [filterInstr_eq]
  exact ⟨by simp, rfl⟩

/-- C10: `filter` is idempotent: filtering an already filtered sequence with
the same predicate changes nothing, since every kept element satisfies the
predicate. -/
theorem filter_idem {α : Type} (vec : List α) (p : α → Bool) :
    filter (filter vec p) p = filter vec p := by
  rw [filter_eq_listFilter, filter_eq_listFilter]
  induction vec with
  | nil => rfl
  | cons x xs ih =>
      by_cases h : p x
      · simp [List.filter_cons, h, ih]
      · simp [List.filter_cons, h, ih]

end Utils
